import Mathlib

/-!
FaceID face-engine: encoder, similarity and store matching.

A shallow embedding of `face-engine/src/embedding.cpp` and `face-engine/src/db.cpp`.

Modelling conventions.

* A C++ `float` object is identified with its 32-bit object representation, a natural
  number below `2 ^ 32`; `f32val` gives the rational value the IEEE-754 binary32 format
  assigns to it.  Arithmetic on floats (`+`, `*`, `>`) is carried out exactly on these
  values: rounding, infinities and NaN are outside the model.
* A `std::vector<float>` is a list of such objects; a BLOB is a list of bytes.
* A read `v[i]` is modelled by `v[i]?`, so a read outside the vector makes the
  enclosing function return `none`.
* The SQLite connection is modelled by the content of the `embeddings` table, rows in the
  order in which `sqlite3_step` yields them; statements on an existing table succeed.
* The OpenCV calls of the encoder are parameters of the model, and the encoder itself is
  stated over an arbitrary division ring with a square-root function as parameter.
-/

namespace fe

/-! ## Float objects and raw bytes -/

/-- Rational value of the binary32 bit pattern `w` (sign bit, 8 exponent bits, 23 fraction
bits); patterns with exponent 255 (infinities, NaN) have no rational value and are read by
the same formula as the normal numbers. -/
def f32val (w : Nat) : ℚ :=
  let s : Nat := w / 2 ^ 31 % 2
  let e : Nat := w / 2 ^ 23 % 256
  let m : Nat := w % 2 ^ 23
  let mag : ℚ := if e = 0 then (m : ℚ) / 2 ^ 149 else ((2 ^ 23 + m : Nat) : ℚ) * 2 ^ e / 2 ^ 150
  if s = 1 then -mag else mag

/-- The four bytes of a float object in memory, least significant first. -/
def floatBytes (w : Nat) : List Nat :=
  [w % 256, w / 256 % 256, w / 65536 % 256, w / 16777216 % 256]

/-- The float object held by (up to) four bytes of memory, least significant first. -/
def bytesFloat (bs : List Nat) : Nat :=
  bs.getD 0 0 + 256 * bs.getD 1 0 + 65536 * bs.getD 2 0 + 16777216 * bs.getD 3 0

/-- The memory behind `v.data()`: the bytes of the elements, in order. -/
def vecBytes (v : List Nat) : List Nat :=
  (v.map floatBytes).flatten

/-- The conversion `(int)` applied to a `size_t`: reduction modulo `2 ^ 32` read as a signed
32-bit integer. -/
def toInt (n : Nat) : Int :=
  let m : Nat := n % 2 ^ 32
  if m < 2 ^ 31 then (m : Int) else (m : Int) - 2 ^ 32

/-! ## embedding.cpp -/

/-- The float literal `1e-9f`: the binary32 value nearest to `1e-9`. -/
def l2eps : ℚ := 9007199 / 9007199254740992

/-- Function `l2norm`: `s` accumulates `x*x`, then `s = sqrt(s) + 1e-9f`, then every component is
divided by `s`. -/
def l2norm {F : Type} [DivisionRing F] (sqrt : F → F) (v : List F) : List F :=
  let s := v.foldl (fun s x => s + x * x) 0
  let s := sqrt s + (l2eps : F)
  v.map (fun x => x / s)

/-- The OpenCV operations `encodeEmbedding` calls, on an image type `Mat` with scalars `F`. -/
structure OpenCV (Mat F : Type) where
  /-- Method `Mat::empty` -/
  empty : Mat → Bool
  /-- Call `cv::cvtColor(_, _, cv::COLOR_BGR2GRAY)` -/
  cvtColor : Mat → Mat
  /-- Value `hist.at<float>(i)` of the `cv::calcHist` result with 32 bins over `[0, 256)` -/
  calcHist : Mat → Nat → F
  /-- Call `cv::resize(_, _, cv::Size(64,64))` -/
  resize : Mat → Mat
  /-- Call `cv::HOGDescriptor(64x64, 16x16, 8x8, 8x8, 9).compute` -/
  hogCompute : Mat → List F

/-- Function `fe::encodeEmbedding`: histogram segment, then at most 128 HOG values, then
`l2norm`; the empty vector for an empty image. -/
def encodeEmbedding {Mat F : Type} [DivisionRing F] (cv : OpenCV Mat F) (sqrt : F → F)
    (bgr : Mat) : List F :=
  let img := bgr
  if cv.empty img then []
  else
    let gray := cv.cvtColor img
    let histSize := 32
    let hist := cv.calcHist gray
    let feat := (List.range histSize).map (fun i => hist i)
    let resized := cv.resize gray
    let hogv := cv.hogCompute resized
    let feat := feat ++ hogv.take (min hogv.length 128)
    l2norm sqrt feat

/-- The loop `float dot=0.f; for (size_t i=0;i<n;++i) dot += a[i]*b[i];`. -/
def dotLoop (a b : List Nat) (n : Nat) : Option ℚ :=
  (List.range n).foldlM
    (fun dot i => do
      let x ← a[i]?
      let y ← b[i]?
      pure (dot + f32val x * f32val y))
    0

/-- Function `fe::cosine`: `0` when either vector is empty or the sizes differ, else the dot
product over `i < a.size()`. -/
def cosine (a b : List Nat) : Option ℚ :=
  if a.isEmpty || b.isEmpty || a.length != b.length then some 0
  else dotLoop a b a.length

/-! ## db.cpp -/

/-- A row of table `embeddings` as `SELECT person_id, vec` yields it: the text and the
BLOB bytes. -/
structure Row where
  person_id : String
  vec : List Nat
deriving DecidableEq, Repr

/-- The database behind a connection: the rows of table `embeddings`, or `none` while the
table has not been created. -/
structure Sqlite where
  embeddings : Option (List Row)
deriving DecidableEq, Repr

/-- Class `fe::DB`: the connection pointer `conn_`, `none` for the null pointer. -/
structure DB where
  conn_ : Option Sqlite
deriving DecidableEq, Repr

/-- Method `DB::enroll`: binds `personId` and the first `(int)(emb.size()*sizeof(float))` bytes
behind `emb.data()`, and inserts the row.  Returns the result and the store afterwards.
A negative byte count is outside the contract of `sqlite3_bind_blob`; no byte is bound
then. -/
def enroll (db : DB) (personId : String) (emb : List Nat) : Bool × DB :=
  match db.conn_ with
  | none => (false, db)
  | some c =>
    match c.embeddings with
    | none => (false, db)
    | some rows =>
      let n := toInt (emb.length * 4)
      let blob := (vecBytes emb).take n.toNat
      (true, ⟨some ⟨some (rows ++ [⟨personId, blob⟩])⟩⟩)

/-- The vector `DB::bestMatch` builds from a BLOB: `blen/sizeof(float)` floats, filled by
`memcpy` from the BLOB bytes; float `i` lies in bytes `4*i .. 4*i+3`.  The `blen % 4` bytes
after the last whole float do not belong to the vector. -/
def blobToVec (blob : List Nat) : List Nat :=
  let blen := blob.length
  (List.range (blen / 4)).map (fun i => bytesFloat ((blob.drop (4 * i)).take 4))

/-- The score `DB::bestMatch` computes for a stored vector: the loop
`for (i=0; i<vec.size() && i<emb.size(); ++i) dot += vec[i]*emb[i]`. -/
def rowDot (emb vec : List Nat) : Option ℚ :=
  dotLoop vec emb (min vec.length emb.length)

/-- Body of the `while (sqlite3_step(st)==SQLITE_ROW)` loop of `DB::bestMatch`, on the
pair `(outScore, outPerson)`. -/
def rowStep (emb : List Nat) (st : ℚ × String) (r : Row) : Option (ℚ × String) := do
  let pid := r.person_id
  let vec := blobToVec r.vec
  let dot ← rowDot emb vec
  pure (if dot > st.1 then (dot, pid) else st)

/-- What a call of `DB::bestMatch` leaves behind: the returned flag and the two reference
parameters. -/
structure MatchOut where
  ret : Bool
  outPerson : String
  outScore : ℚ
deriving DecidableEq, Repr

/-- Method `DB::bestMatch`; `outPerson` and `outScore` are the values the reference parameters
hold on entry. -/
def bestMatch (db : DB) (emb : List Nat) (outPerson : String) (outScore : ℚ) :
    Option MatchOut :=
  match db.conn_ with
  | none => some ⟨false, outPerson, outScore⟩
  | some c =>
    match c.embeddings with
    | none => some ⟨false, outPerson, outScore⟩
    | some rows => do
      let st ← rows.foldlM (rowStep emb) (-1, "")
      pure ⟨!st.2.isEmpty, st.2, st.1⟩


/-! ## Specification-side notions -/

/-- The dot product of two vectors over their common prefix, in exact arithmetic. -/
def dotSum (a b : List Nat) : ℚ :=
  (List.zipWith (fun x y => f32val x * f32val y) a b).sum

/-- The score the loop body of `DB::bestMatch` computes for row `r` against query `emb`
(the value of `dot` when the comparison with `outScore` is made). -/
def rowScore (emb : List Nat) (r : Row) : ℚ :=
  (rowDot emb (blobToVec r.vec)).getD 0

/-- Index `i` is the first position at which the list `s` attains its maximum. -/
def IsFirstMax (s : List ℚ) (i : Nat) : Prop :=
  i < s.length ∧ (∀ j, j < s.length → s.getD j 0 ≤ s.getD i 0) ∧
    (∀ j, j < i → s.getD j 0 < s.getD i 0)

instance (s : List ℚ) (i : Nat) : Decidable (IsFirstMax s i) := by
  unfold IsFirstMax; infer_instance

/-- The scan of `DB::bestMatch` with the per-row score already computed: the state
`(outScore, outPerson)` after the rows `rows`, starting from `st`. -/
def scan (emb : List Nat) (rows : List Row) (st : ℚ × String) : ℚ × String :=
  rows.foldl (fun st r => if rowScore emb r > st.1 then (rowScore emb r, r.person_id) else st) st

/-- An open store whose table holds `rows`, in scan order. -/
def openStore (rows : List Row) : DB := ⟨some ⟨some rows⟩⟩

/-! ## Concrete data used in examples -/

/-- The float `1.0f`. -/
def one32 : Nat := 0x3f800000

/-- The float `2.0f`. -/
def two32 : Nat := 0x40000000

/-- The float `3.0f`. -/
def three32 : Nat := 0x40400000

/-- The float `0.999f` of the unit test. -/
def testBound32 : Nat := 0x3f7fbe77

/-- Four rows whose vectors are `{0.25}`, `{0.75}`, `{0.75}`, `{0.125}`. -/
def tieRows : List Row :=
  [⟨"a", [0, 0, 128, 62]⟩, ⟨"b", [0, 0, 64, 63]⟩, ⟨"c", [0, 0, 64, 63]⟩, ⟨"d", [0, 0, 0, 62]⟩]

/-- One row whose vector is `{1.0}`. -/
def aliceRows : List Row := [⟨"alice", [0, 0, 128, 63]⟩]

/-- Bin counts of an image of one pixel whose intensity falls in bin 0. -/
def onePixelCounts (i : Nat) : Nat := if i = 0 then 1 else 0

/-- OpenCV results for an image of one pixel: histogram `onePixelCounts`, empty HOG
descriptor. -/
def onePixelCv (F : Type) [DivisionRing F] : OpenCV Unit F where
  empty := fun _ => false
  cvtColor := fun m => m
  calcHist := fun _ i => ((onePixelCounts i : Nat) : F)
  resize := fun m => m
  hogCompute := fun _ => []



/-! ## The dot-product loop -/

theorem dotLoop_eq (a b : List Nat) (n : Nat) (ha : n ≤ a.length) (hb : n ≤ b.length) :
    dotLoop a b n = some (dotSum (a.take n) (b.take n)) := by
  unfold dotLoop
  induction n with
  | zero => simp [dotSum]
  | succ k ih =>
    have hka : k < a.length := by omega
    have hkb : k < b.length := by omega
    rw [List.range_succ, List.foldlM_append, ih (by omega) (by omega)]
    simp only [List.foldlM_cons, List.foldlM_nil, Option.some_bind,
      List.getElem?_eq_getElem hka, List.getElem?_eq_getElem hkb, Option.pure_def,
      Option.bind_eq_bind]
    congr 1
    unfold dotSum
    rw [List.take_succ, List.take_succ, List.getElem?_eq_getElem hka,
      List.getElem?_eq_getElem hkb]
    simp only [Option.toList_some]
    rw [List.zipWith_append]
    · simp
    · simp [List.length_take]; omega

theorem rowDot_eq (emb vec : List Nat) : rowDot emb vec = some (dotSum vec emb) := by
  unfold rowDot
  rw [dotLoop_eq vec emb _ (Nat.min_le_left _ _) (Nat.min_le_right _ _)]
  unfold dotSum
  rw [← List.zipWith_eq_zipWith_take_min]

theorem rowDot_row (emb : List Nat) (r : Row) :
    rowDot emb (blobToVec r.vec) = some (rowScore emb r) := by
  simp [rowScore, rowDot_eq]

theorem rowScore_eq (emb : List Nat) (r : Row) :
    rowScore emb r = dotSum (blobToVec r.vec) emb := by
  simp [rowScore, rowDot_eq]

theorem cosine_eq (a b : List Nat) :
    cosine a b = some (if a.length = b.length then dotSum a b else 0) := by
  unfold cosine
  by_cases h : a.length = b.length
  · cases a with
    | nil => simp [dotSum]
    | cons x xs =>
      cases b with
      | nil => simp at h
      | cons y ys =>
        have h2 : (x :: xs).length ≤ (y :: ys).length := by omega
        rw [dotLoop_eq _ _ _ (le_refl _) h2]
        simp only [List.isEmpty_cons, Bool.or_self, h, bne_self_eq_false, Bool.false_eq_true,
          ↓reduceIte, List.take_length]
        rw [← h, List.take_length]
  · simp [h]

/-! ## The scan of `DB::bestMatch` -/

theorem rowStep_eq (emb : List Nat) (st : ℚ × String) (r : Row) :
    rowStep emb st r
      = some (if rowScore emb r > st.1 then (rowScore emb r, r.person_id) else st) := by
  simp [rowStep, rowDot_row]

theorem foldlM_rowStep (emb : List Nat) (rows : List Row) (st : ℚ × String) :
    rows.foldlM (rowStep emb) st = some (scan emb rows st) := by
  induction rows generalizing st with
  | nil => simp [scan]
  | cons r rest ih =>
    simp only [List.foldlM_cons, rowStep_eq, Option.some_bind, Option.bind_eq_bind, ih]
    simp [scan]

theorem scan_spec (emb : List Nat) (rows : List Row) (st : ℚ × String) :
    ((∀ r ∈ rows, rowScore emb r ≤ st.1) ∧ scan emb rows st = st) ∨
    (∃ i r, rows[i]? = some r ∧ st.1 < rowScore emb r ∧
      IsFirstMax (rows.map (rowScore emb)) i ∧
      scan emb rows st = (rowScore emb r, r.person_id)) := by
  induction rows generalizing st with
  | nil => left; simp [scan]
  | cons r rest ih =>
    by_cases h : rowScore emb r > st.1
    · have hs : scan emb (r :: rest) st = scan emb rest (rowScore emb r, r.person_id) := by
        simp [scan, h]
      right
      rcases ih (rowScore emb r, r.person_id) with ⟨hall, heq⟩ | ⟨i, r', hi, hlt, hmax, heq⟩
      · refine ⟨0, r, by simp, h, ?_, by rw [hs, heq]⟩
        refine ⟨by simp, ?_, by simp⟩
        intro j hj
        cases j with
        | zero => simp
        | succ j =>
          simp only [List.map_cons, List.length_cons, Nat.add_lt_add_iff_right,
            List.length_map] at hj
          simp only [List.map_cons, List.getD_cons_succ, List.getD_cons_zero]
          rw [List.getD_eq_getElem _ _ (by simpa using hj)]
          simp only [List.getElem_map]
          exact hall _ (List.getElem_mem _)
      · obtain ⟨hil, hle, hfirst⟩ := hmax
        refine ⟨i + 1, r', by simpa using hi, lt_trans h hlt, ?_, by rw [hs, heq]⟩
        refine ⟨by simpa using hil, ?_, ?_⟩
        · intro j hj
          cases j with
          | zero => simpa [hi] using le_of_lt hlt
          | succ j => simpa using hle j (by simpa using hj)
        · intro j hj
          cases j with
          | zero => simpa [hi] using hlt
          | succ j => simpa using hfirst j (by omega)
    · have hs : scan emb (r :: rest) st = scan emb rest st := by
        simp [scan, h]
      rcases ih st with ⟨hall, heq⟩ | ⟨i, r', hi, hlt, hmax, heq⟩
      · left
        refine ⟨?_, by rw [hs, heq]⟩
        intro x hx
        rcases List.mem_cons.mp hx with rfl | hx
        · exact not_lt.mp h
        · exact hall x hx
      · right
        obtain ⟨hil, hle, hfirst⟩ := hmax
        refine ⟨i + 1, r', by simpa using hi, hlt, ?_, by rw [hs, heq]⟩
        refine ⟨by simpa using hil, ?_, ?_⟩
        · intro j hj
          cases j with
          | zero => simpa [hi] using le_of_lt (lt_of_le_of_lt (not_lt.mp h) hlt)
          | succ j => simpa using hle j (by simpa using hj)
        · intro j hj
          cases j with
          | zero => simpa [hi] using lt_of_le_of_lt (not_lt.mp h) hlt
          | succ j => simpa using hfirst j (by omega)

theorem bestMatch_open (emb : List Nat) (rows : List Row) (p : String) (s : ℚ) :
    bestMatch (openStore rows) emb p s
      = some ⟨!(scan emb rows (-1, "")).2.isEmpty, (scan emb rows (-1, "")).2,
          (scan emb rows (-1, "")).1⟩ := by
  simp [bestMatch, openStore, foldlM_rowStep]

/-- On scores `0.25, 0.75, 0.75, 0.125` the record at index 1 is reported. -/
theorem bestMatch_tie_example :
    tieRows.map (rowScore [one32]) = [1 / 4, 3 / 4, 3 / 4, 1 / 8] ∧
    bestMatch (openStore tieRows) [one32] "" 0 = some ⟨true, "b", 3 / 4⟩ := by
  decide!

/-- C2: on an open store that holds no records `DB::bestMatch` returns false, with
`outScore = -1` and `outPerson` empty, whatever the query and whatever the reference
parameters held before. -/
theorem bestMatch_empty_store (emb : List Nat) (p : String) (s : ℚ) :
    bestMatch (openStore []) emb p s = some ⟨false, "", -1⟩ := by
  rfl

/-- C3, as stated, fails: with one stored record `("alice", {1.0})` the empty query makes
`DB::bestMatch` return true with `outScore = 0`. -/
theorem empty_query_match_counterexample :
    bestMatch (openStore aliceRows) [] "" 0 = some ⟨true, "alice", 0⟩ ∧
    ¬ ∃ out, bestMatch (openStore aliceRows) [] "" 0 = some out ∧
        out.ret = false ∧ out.outScore = -1 := by
  have hb : bestMatch (openStore aliceRows) [] "" 0 = some ⟨true, "alice", 0⟩ := by decide!
  refine ⟨hb, ?_⟩
  rintro ⟨out, ho, hr, -⟩
  rw [hb] at ho
  cases ho
  exact absurd hr (by decide)

theorem rowScore_nil (r : Row) : rowScore [] r = 0 := by
  simp [rowScore_eq, dotSum]

theorem scan_of_le (emb : List Nat) (rows : List Row) (st : ℚ × String)
    (h : ∀ r ∈ rows, rowScore emb r ≤ st.1) : scan emb rows st = st := by
  rcases scan_spec emb rows st with ⟨-, heq⟩ | ⟨i, r, hi, hlt, -, -⟩
  · exact heq
  · exact absurd (h r (List.getElem?_mem hi)) (not_le.mpr hlt)

/-- C3 (amended): with the empty query every record scores `0`, so `DB::bestMatch` on an
open store returns "no match" (false, `outScore = -1`, `outPerson` empty) exactly when the
store holds no records; on a non-empty store `outScore` is `0`, `outPerson` is the label of
the first record in scan order, and the result is true when that label is non-empty. -/
theorem bestMatch_empty_query (rows : List Row) (p : String) (s : ℚ) :
    bestMatch (openStore rows) [] p s
      = some (match rows with
          | [] => ⟨false, "", -1⟩
          | r :: _ => ⟨!r.person_id.isEmpty, r.person_id, 0⟩) := by
  rw [bestMatch_open]
  cases rows with
  | nil => rfl
  | cons r rest =>
    have h1 : scan [] (r :: rest) (-1, "") = scan [] rest (0, r.person_id) := by
      simp [scan, rowScore_nil]
    rw [h1, scan_of_le [] rest (0, r.person_id) (fun x _ => by simp [rowScore_nil])]

theorem dotSum_comm (a b : List Nat) : dotSum a b = dotSum b a := by
  unfold dotSum
  rw [List.zipWith_comm]
  congr 2
  funext x y
  exact mul_comm _ _

/-- On vectors of equal length the score of `DB::bestMatch` and `fe::cosine` agree. -/
theorem rowDot_eq_cosine_of_length_eq (emb vec : List Nat) (h : emb.length = vec.length) :
    rowDot emb vec = cosine emb vec := by
  rw [rowDot_eq, cosine_eq, if_pos h, dotSum_comm]

/-- C5 (the code at the failing input): for the query `{1.0, 1.0}` and the stored vector
`{1.0}` the loop of `DB::bestMatch` computes the score `1`, the dot product over the common
prefix, while `fe::cosine` of the same two vectors is `0`; `DB::bestMatch` then reports
that record with score `1`. -/
theorem rowDot_ne_cosine_at_mismatch :
    rowDot [one32, one32] [one32] = some 1 ∧
    cosine [one32, one32] [one32] = some 0 ∧
    bestMatch (openStore aliceRows) [one32, one32] "" 0 = some ⟨true, "alice", 1⟩ := by
  decide!

/-- C6: `fe::cosine` always returns a value (no read outside either vector), and the value
is `0` whenever the two lengths differ or one of the vectors is empty. -/
theorem cosine_length_ne (a b : List Nat) :
    (∃ c, cosine a b = some c) ∧
    (a.length ≠ b.length ∨ a = [] ∨ b = [] → cosine a b = some 0) := by
  refine ⟨⟨_, cosine_eq a b⟩, ?_⟩
  rintro (h | h | h)
  · rw [cosine_eq, if_neg h]
  · subst h
    rw [cosine_eq]
    simp [dotSum]
  · subst h
    rw [cosine_eq]
    cases a <;> simp [dotSum]

/-- Witness for C6: vectors `{1.0}` and `{1.0, 2.0}`. -/
theorem cosine_length_ne_witness :
    ([one32].length ≠ [one32, two32].length ∨ [one32] = [] ∨ [one32, two32] = []) ∧
    cosine [one32] [one32, two32] = some 0 :=
  ⟨Or.inl (by decide), (cosine_length_ne [one32] [one32, two32]).2 (Or.inl (by decide))⟩

theorem dotSum_self (v : List Nat) : dotSum v v = (v.map (fun x => f32val x ^ 2)).sum := by
  unfold dotSum
  induction v with
  | nil => rfl
  | cons x xs ih => simp [ih, sq]

/-- C7: for a non-empty vector `v`, `fe::cosine(v, v)` is the sum of the squares of the
components; so it is `1` when that sum is `1` (unit norm), and for `{1, 2, 3}` it is `14`,
above the bound `0.999f` of the unit test. -/
theorem cosine_self (v : List Nat) (hv : v ≠ []) :
    cosine v v = some (v.map (fun x => f32val x ^ 2)).sum ∧
    ((v.map (fun x => f32val x ^ 2)).sum = 1 → cosine v v = some 1) ∧
    (v = [one32, two32, three32] → cosine v v = some 14 ∧ f32val testBound32 < 14) := by
  have h : cosine v v = some (v.map (fun x => f32val x ^ 2)).sum := by
    rw [cosine_eq, if_pos rfl, dotSum_self]
  refine ⟨h, fun h1 => by rw [h, h1], ?_⟩
  rintro rfl
  decide!

/-- Witness for C7: the vector `{1, 2, 3}` of the unit test. -/
theorem cosine_self_witness :
    [one32, two32, three32] ≠ [] ∧
    cosine [one32, two32, three32] [one32, two32, three32] = some 14 ∧
    f32val testBound32 < 14 :=
  ⟨by decide, (cosine_self [one32, two32, three32] (by decide)).2.2 rfl⟩

/-! ## The stored representation -/

theorem bytesFloat_floatBytes (w : Nat) (h : w < 2 ^ 32) : bytesFloat (floatBytes w) = w := by
  simp only [bytesFloat, floatBytes, List.getD_cons_zero, List.getD_cons_succ]
  omega

theorem vecBytes_cons (w : Nat) (v : List Nat) :
    vecBytes (w :: v) = floatBytes w ++ vecBytes v := by
  simp [vecBytes]

theorem vecBytes_length (v : List Nat) : (vecBytes v).length = v.length * 4 := by
  induction v with
  | nil => rfl
  | cons w v ih =>
    rw [vecBytes_cons, List.length_append, ih]
    simp [floatBytes]
    omega

theorem blobToVec_four (b0 b1 b2 b3 : Nat) (rest : List Nat) :
    blobToVec (b0 :: b1 :: b2 :: b3 :: rest)
      = bytesFloat [b0, b1, b2, b3] :: blobToVec rest := by
  unfold blobToVec
  have hl : (b0 :: b1 :: b2 :: b3 :: rest).length / 4 = rest.length / 4 + 1 := by
    simp only [List.length_cons]
    omega
  simp only [hl, List.range_succ_eq_map, List.map_cons, List.map_map]
  congr 1

theorem blobToVec_vecBytes (v : List Nat) (hv : ∀ w ∈ v, w < 2 ^ 32) :
    blobToVec (vecBytes v) = v := by
  induction v with
  | nil => rfl
  | cons w v ih =>
    rw [vecBytes_cons]
    have h1 : floatBytes w ++ vecBytes v
        = w % 256 :: (w / 256 % 256) :: (w / 65536 % 256) :: (w / 16777216 % 256)
            :: vecBytes v := rfl
    rw [h1, blobToVec_four, ih (fun x hx => hv x (List.mem_cons_of_mem _ hx))]
    congr 1
    exact bytesFloat_floatBytes w (hv w (List.mem_cons_self _ _))

theorem toInt_of_lt (n : Nat) (h : n < 2 ^ 31) : toInt n = (n : Int) := by
  unfold toInt
  have h1 : n % 2 ^ 32 = n := Nat.mod_eq_of_lt (by omega)
  simp only [h1, h, ↓reduceIte]

/-- C9: for a vector `v` of float objects with `v.size()*4` fitting in an `int`,
`DB::enroll` on an open store appends a row whose BLOB has exactly `v.size()*4` bytes, and
the vector `DB::bestMatch` rebuilds from that BLOB has the length of `v` and is equal to
`v` object by object. -/
theorem enroll_roundtrip (rows : List Row) (personId : String) (v : List Nat)
    (hv : ∀ w ∈ v, w < 2 ^ 32) (hfit : v.length * 4 < 2 ^ 31) :
    ∃ blob, enroll (openStore rows) personId v
        = (true, openStore (rows ++ [⟨personId, blob⟩])) ∧
      blob.length = v.length * 4 ∧
      (blobToVec blob).length = v.length ∧
      blobToVec blob = v := by
  have hb : (vecBytes v).take (toInt (v.length * 4)).toNat = vecBytes v := by
    rw [toInt_of_lt _ hfit, Int.toNat_ofNat, ← vecBytes_length, List.take_length]
  refine ⟨vecBytes v, ?_, vecBytes_length v, ?_, blobToVec_vecBytes v hv⟩
  · simp only [enroll, openStore, hb]
  · rw [blobToVec_vecBytes v hv]

/-- Witness for C9: enrolling `{1.0, 3.0}` under the label `"bob"` into the empty store. -/
theorem enroll_roundtrip_witness :
    (∀ w ∈ [one32, three32], w < 2 ^ 32) ∧ [one32, three32].length * 4 < 2 ^ 31 ∧
    ∃ blob, enroll (openStore []) "bob" [one32, three32]
        = (true, openStore ([] ++ [⟨"bob", blob⟩])) ∧
      blob.length = [one32, three32].length * 4 ∧
      (blobToVec blob).length = [one32, three32].length ∧
      blobToVec blob = [one32, three32] :=
  ⟨by decide, by decide, enroll_roundtrip [] "bob" [one32, three32] (by decide) (by decide)⟩

/-- The row written for `{1.0, 3.0}`. -/
theorem enroll_example :
    enroll (openStore []) "bob" [one32, three32]
      = (true, openStore [⟨"bob", [0, 0, 128, 63, 0, 0, 64, 64]⟩]) := by
  decide

/-! ## The encoder -/

theorem foldl_sq_eq {F : Type} [DivisionRing F] (v : List F) (acc : F) :
    v.foldl (fun s x => s + x * x) acc = acc + (v.map (fun x => x ^ 2)).sum := by
  induction v generalizing acc with
  | nil => simp
  | cons x xs ih => simp [ih, sq, add_assoc]

theorem l2norm_length {F : Type} [DivisionRing F] (sqrt : F → F) (v : List F) :
    (l2norm sqrt v).length = v.length := by
  simp [l2norm]

theorem sum_sq_div (v : List ℝ) (d : ℝ) :
    ((v.map (fun x => x / d)).map (fun x => x ^ 2)).sum
      = (v.map (fun x => x ^ 2)).sum / d ^ 2 := by
  induction v with
  | nil => simp
  | cons x xs ih =>
    simp only [List.map_cons, List.sum_cons, ih]
    rw [div_pow, add_div]

theorem sum_sq_nonneg (v : List ℝ) : 0 ≤ (v.map (fun x => x ^ 2)).sum := by
  apply List.sum_nonneg
  intro x hx
  obtain ⟨y, -, rfl⟩ := List.mem_map.mp hx
  exact sq_nonneg y

theorem l2eps_pos : (0 : ℝ) < (l2eps : ℝ) := by
  have : (0 : ℚ) < l2eps := by unfold l2eps; norm_num
  exact_mod_cast this

theorem l2eps_le : ((l2eps : ℚ) : ℝ) ≤ 1e-9 := by
  have : l2eps ≤ (1e-9 : ℚ) := by unfold l2eps; norm_num
  have h2 : ((l2eps : ℚ) : ℝ) ≤ ((1e-9 : ℚ) : ℝ) := by exact_mod_cast this
  refine le_trans h2 (le_of_eq ?_)
  norm_num

/-- The norm of the output of `l2norm` on a vector whose sum of squares is at least one. -/
theorem l2norm_norm (v : List ℝ) (h : 1 ≤ (v.map (fun x => x ^ 2)).sum) :
    |1 - Real.sqrt (((l2norm Real.sqrt v).map (fun x => x ^ 2)).sum)| ≤ 1e-9 := by
  set Q := (v.map (fun x => x ^ 2)).sum with hQ
  have hS : 1 ≤ Real.sqrt Q := by
    rw [show (1 : ℝ) = Real.sqrt 1 by simp]
    exact Real.sqrt_le_sqrt h
  have heps := l2eps_pos
  have hd : 0 < Real.sqrt Q + (l2eps : ℝ) := by linarith
  have hout : ((l2norm Real.sqrt v).map (fun x => x ^ 2)).sum
      = Q / (Real.sqrt Q + (l2eps : ℝ)) ^ 2 := by
    unfold l2norm
    simp only [foldl_sq_eq, zero_add]
    rw [sum_sq_div]
  rw [hout, Real.sqrt_div (le_trans zero_le_one h), Real.sqrt_sq (le_of_lt hd)]
  have h1 : 1 - Real.sqrt Q / (Real.sqrt Q + (l2eps : ℝ))
      = (l2eps : ℝ) / (Real.sqrt Q + (l2eps : ℝ)) := by
    field_simp
  rw [h1, abs_of_nonneg (div_nonneg (le_of_lt heps) (le_of_lt hd))]
  have h2 : (l2eps : ℝ) / (Real.sqrt Q + (l2eps : ℝ)) ≤ (l2eps : ℝ) := by
    rw [div_le_iff₀ hd]
    nlinarith
  exact le_trans h2 l2eps_le

theorem hist_sq_sum (hist : Nat → ℝ) (counts : Nat → Nat) (n : Nat)
    (hh : ∀ i, i < n → hist i = (counts i : ℝ)) (hp : 1 ≤ ((List.range n).map counts).sum) :
    1 ≤ (((List.range n).map (fun i => hist i)).map (fun x => x ^ 2)).sum := by
  have h1 : ((1 : Nat) : ℝ) ≤ ((((List.range n).map counts).sum : Nat) : ℝ) := by
    exact_mod_cast hp
  have h2 : ((((List.range n).map counts).sum : Nat) : ℝ)
      = ((List.range n).map (fun i => (counts i : ℝ))).sum := by
    rw [Nat.cast_list_sum, List.map_map]
    rfl
  rw [h2] at h1
  rw [List.map_map]
  refine le_trans (by simpa using h1) ?_
  apply List.sum_le_sum
  intro i hi
  have hin : i < n := List.mem_range.mp hi
  simp only [Function.comp_apply, hh i hin]
  have hc : (counts i : ℝ) ≤ (counts i : ℝ) ^ 2 := by
    have : counts i ≤ counts i ^ 2 := Nat.le_self_pow (by decide) _
    exact_mod_cast this
  exact hc

/-- C8: for a non-empty image whose 32 histogram bins hold natural-number counts with sum
at least one, `encodeEmbedding` (in exact real arithmetic) returns a vector of length
`32 + min(|hog|, 128)` whose Euclidean norm differs from `1` by at most `1e-9`. -/
theorem encodeEmbedding_unit_norm {Mat : Type} (cv : OpenCV Mat ℝ) (bgr : Mat)
    (counts : Nat → Nat) (hne : cv.empty bgr = false)
    (hhist : ∀ i, i < 32 → cv.calcHist (cv.cvtColor bgr) i = (counts i : ℝ))
    (hpix : 1 ≤ ((List.range 32).map counts).sum) :
    (encodeEmbedding cv Real.sqrt bgr).length
        = 32 + min (cv.hogCompute (cv.resize (cv.cvtColor bgr))).length 128 ∧
    |1 - Real.sqrt (((encodeEmbedding cv Real.sqrt bgr).map (fun x => x ^ 2)).sum)|
        ≤ 1e-9 := by
  have he : encodeEmbedding cv Real.sqrt bgr
      = l2norm Real.sqrt ((List.range 32).map (fun i => cv.calcHist (cv.cvtColor bgr) i)
          ++ (cv.hogCompute (cv.resize (cv.cvtColor bgr))).take
              (min (cv.hogCompute (cv.resize (cv.cvtColor bgr))).length 128)) := by
    simp [encodeEmbedding, hne]
  rw [he]
  constructor
  · rw [l2norm_length]
    simp
  · apply l2norm_norm
    rw [List.map_append, List.sum_append]
    have h1 := hist_sq_sum (cv.calcHist (cv.cvtColor bgr)) counts 32 hhist hpix
    have h2 := sum_sq_nonneg ((cv.hogCompute (cv.resize (cv.cvtColor bgr))).take
              (min (cv.hogCompute (cv.resize (cv.cvtColor bgr))).length 128))
    linarith

/-- Witness for C8: an image of one pixel falling in bin 0, with an empty HOG descriptor. -/
theorem encodeEmbedding_unit_norm_witness :
    (onePixelCv ℝ).empty () = false ∧
    (∀ i, i < 32 →
      (onePixelCv ℝ).calcHist ((onePixelCv ℝ).cvtColor ()) i = ((onePixelCounts i : Nat) : ℝ)) ∧
    1 ≤ ((List.range 32).map onePixelCounts).sum ∧
    (encodeEmbedding (onePixelCv ℝ) Real.sqrt ()).length
        = 32 + min ((onePixelCv ℝ).hogCompute
            ((onePixelCv ℝ).resize ((onePixelCv ℝ).cvtColor ()))).length 128 ∧
    |1 - Real.sqrt (((encodeEmbedding (onePixelCv ℝ) Real.sqrt ()).map
        (fun x => x ^ 2)).sum)| ≤ 1e-9 :=
  have h1 : (onePixelCv ℝ).empty () = false := rfl
  have h2 : ∀ i, i < 32 →
      (onePixelCv ℝ).calcHist ((onePixelCv ℝ).cvtColor ()) i
        = ((onePixelCounts i : Nat) : ℝ) := fun _ _ => rfl
  have h3 : 1 ≤ ((List.range 32).map onePixelCounts).sum := by decide
  ⟨h1, h2, h3, encodeEmbedding_unit_norm (onePixelCv ℝ) () onePixelCounts h1 h2 h3⟩

end fe
